import Mathlib

/-!
Shallow embedding of the just-read-feed update job
(`packages/api/src/jobs/update_just_read_feed.ts`): candidate selection,
ranking, mixing into sections, and the per-user feed store, together with
theorems settling the specification's claims about them.

External collaborators (library search, subscription lookup, public
inventory, the scoring service, the Redis sorted set) appear as explicit
parameters or as definitions modelled from the spec, as noted in the
doc comments.  JavaScript numbers are modelled as `Int` (scores, times)
and `Nat` (word counts, sizes); `JSON` serialization of sections is
modelled as the identity, which is faithful because distinct `Section`
values serialize to distinct strings.
-/

namespace JustReadFeed

/-- Subscription descriptor `{name, type}` carried on a candidate. -/
structure Sub where
  name : String
  type : String
deriving DecidableEq

/-- A normalized content item eligible for the feed (interface `Candidate`). -/
structure Candidate where
  id : String
  title : String
  url : String
  type : String
  thumbnail : Option String
  previewContent : Option String
  languageCode : String
  author : Option String
  dir : String
  date : Int
  topic : Option String
  wordCount : Nat
  siteIcon : Option String
  siteName : Option String
  folder : Option String
  score : Option Int
  publishedAt : Option Int
  subscription : Option Sub
deriving DecidableEq

/-- An item reference inside a section (interface `Item`). -/
structure Item where
  id : String
  type : String
deriving DecidableEq

/-- The persisted unit: item references plus a layout tag (interface `Section`). -/
structure Section where
  items : List Item
  layout : String
deriving DecidableEq

/-- Source entity `LibraryItem`, restricted to the fields the job reads. -/
structure LibraryItem where
  id : String
  title : String
  originalUrl : String
  thumbnail : Option String
  description : Option String
  itemLanguage : Option String
  author : Option String
  directionality : Option String
  createdAt : Int
  topic : Option String
  wordCount : Nat
  siteName : Option String
  siteIcon : Option String
  folder : Option String
  score : Option Int
  publishedAt : Option Int
  subscription : Option String
deriving DecidableEq

/-- Source entity `Subscription`, restricted to the fields the job reads. -/
structure Subscription where
  name : String
  url : String
  type : String
deriving DecidableEq

/-- Source entity `PublicItem`, restricted to the fields the job reads. -/
structure PublicItem where
  id : String
  title : String
  url : String
  thumbnail : Option String
  previewContent : Option String
  languageCode : Option String
  author : Option String
  dir : Option String
  createdAt : Int
  topic : Option String
  wordCount : Nat
  siteIcon : Option String
  publishedAt : Option Int
  source : Sub
deriving DecidableEq

/-- JavaScript `x || undefined` on an optional string: the empty string is
falsy and collapses to `undefined`. -/
def strOrUndef (o : Option String) : Option String :=
  o.filter (fun s => !(s == ""))

/-- JavaScript `x || d` on an optional string: `undefined` and the empty
string fall back to the default. -/
def strOr (o : Option String) (d : String) : String :=
  match o with
  | none => d
  | some s => if s == "" then d else s

/-- Modelled from the spec: the external `lanaugeToCode` helper maps a
language name to a language code; the mapping itself lives outside the
feed core and no claim depends on it, so it is modelled as the identity. -/
def lanaugeToCode (s : String) : String := s

/-- `libraryItemToCandidate`: normalize a private library item, resolving
its subscription name/URL against the fetched subscription records. -/
def libraryItemToCandidate (item : LibraryItem) (subscriptions : List Subscription) :
    Candidate :=
  { id := item.id
    title := item.title
    url := item.originalUrl
    type := "library_item"
    thumbnail := strOrUndef item.thumbnail
    previewContent := strOrUndef item.description
    languageCode := lanaugeToCode (strOr item.itemLanguage "English")
    author := strOrUndef item.author
    dir := strOr item.directionality "ltr"
    date := item.createdAt
    topic := item.topic
    wordCount := item.wordCount
    siteName := strOrUndef item.siteName
    siteIcon := strOrUndef item.siteIcon
    folder := item.folder
    score := item.score
    publishedAt := item.publishedAt
    subscription :=
      match item.subscription with
      | none => none
      | some subName =>
        (subscriptions.find? (fun s => s.name == subName || s.url == subName)).map
          (fun s => ⟨s.name, s.type⟩) }

/-- `publicItemToCandidate`: normalize a public inventory item. -/
def publicItemToCandidate (item : PublicItem) : Candidate :=
  { id := item.id
    title := item.title
    url := item.url
    type := "public_item"
    thumbnail := item.thumbnail
    previewContent := item.previewContent
    languageCode := strOr item.languageCode "en"
    author := item.author
    dir := strOr item.dir "ltr"
    date := item.createdAt
    topic := item.topic
    wordCount := item.wordCount
    siteIcon := item.siteIcon
    siteName := none
    folder := none
    score := none
    publishedAt := item.publishedAt
    subscription := some ⟨item.source.name, item.source.type⟩ }

/-- `selectCandidates`: take the first 70 private candidates, then fill the
remaining vacancies (up to `100 - privateCount`) from the public items.
The two source queries and the subscription lookup are collaborators; their
responses are the parameters. -/
def selectCandidates (libraryItems : List LibraryItem)
    (subscriptions : List Subscription) (publicItems : List PublicItem) :
    List Candidate :=
  let privateCandidates := (libraryItems.map (libraryItemToCandidate · subscriptions)).take 70
  let publicCandidates :=
    (publicItems.map publicItemToCandidate).take (100 - privateCandidates.length)
  privateCandidates ++ publicCandidates

/-- The scoring collaborator's response: candidate id to score. -/
abbrev ScoreOracle : Type := String → Option Int

/-- The `preCalculatedScores` map: candidates already carrying a score,
reduced in list order with later writes shadowing earlier ones. -/
def preScores (candidates : List Candidate) : List (String × Int) :=
  candidates.foldl
    (fun acc c => match c.score with | some s => (c.id, s) :: acc | none => acc) []

/-- The merged lookup `{...preCalculatedScores, ...newScores}` followed by
`scores[id] || 0`: fresh scores shadow precomputed ones, a missing score is 0. -/
def mergedScore (newScores : ScoreOracle) (pre : List (String × Int)) (id : String) :
    Int :=
  match newScores id with
  | some v => v
  | none => (pre.lookup id).getD 0

/-- The request `rankCandidates` sends to the scoring collaborator: `none`
when ranking is skipped, otherwise the candidates without a precomputed
score (only their feature bundles are serialized). -/
def rankRequest (candidates : List Candidate) : Option (List Candidate) :=
  if candidates.length ≤ 10 then none
  else some (candidates.filter (fun c => c.score.isNone))

/-- `rankCandidates`: return the list unchanged when it has at most 10
entries, otherwise sort ascending by merged score (stable sort, as
JavaScript's `Array.prototype.sort`). -/
def rankCandidates (newScores : ScoreOracle) (candidates : List Candidate) :
    List Candidate :=
  if candidates.length ≤ 10 then candidates
  else
    let pre := preScores candidates
    List.insertionSort
      (fun a b => mergedScore newScores pre a.id ≤ mergedScore newScores pre b.id)
      candidates

/-- The sorted copy of the word counts (`wordCounts.sort((a, b) => a - b)`). -/
def sortedWordCounts (l : List Candidate) : List Nat :=
  List.insertionSort (· ≤ ·) (l.map (·.wordCount))

/-- `wordCounts[Math.floor(wordCounts.length / 2)]`: `none` models the
undefined index read on an empty list. -/
def medianWordCount (l : List Candidate) : Option Nat :=
  (sortedWordCounts l)[l.length / 2]?

/-- The short/long split: word count strictly below the median goes short,
the rest long, in input order.  With an undefined median (empty input) the
comparison `wordCount < undefined` is false and everything goes long. -/
def splitByMedian (l : List Candidate) : List Candidate × List Candidate :=
  match medianWordCount l with
  | none => ([], l)
  | some m =>
    l.foldl
      (fun acc item =>
        if item.wordCount < m then (acc.1 ++ [item], acc.2) else (acc.1, acc.2 ++ [item]))
      ([], [])

/-- `checkConstraints`: the diversity guard of a candidate against a batch's
existing members (note `===` on two absent authors, site names or
subscription names holds, as `undefined === undefined`). -/
def checkConstraints (batch : List Candidate) (item : Candidate) : Bool :=
  let titleCount := (batch.filter (fun i => i.title == item.title)).length
  let authorCount := (batch.filter (fun i => i.author == item.author)).length
  let siteCount := (batch.filter (fun i => i.siteName == item.siteName)).length
  let subscriptionCount :=
    (batch.filter (fun i => i.subscription.map Sub.name == item.subscription.map Sub.name)).length
  decide (titleCount < 1 ∧ authorCount < 2 ∧ siteCount < 2 ∧ subscriptionCount < 2)

/-- The constrained first-fit pass of `distributeItems`: first batch with
fewer than 5 members that satisfies the diversity constraints. -/
def placeConstrained (item : Candidate) : List (List Candidate) →
    Option (List (List Candidate))
  | [] => none
  | b :: bs =>
    if b.length < 5 ∧ checkConstraints b item = true then some ((b ++ [item]) :: bs)
    else (placeConstrained item bs).map (b :: ·)

/-- The relaxed overflow pass of `distributeItems`: first batch with fewer
than 10 members, ignoring diversity. -/
def placeRelaxed (item : Candidate) : List (List Candidate) →
    Option (List (List Candidate))
  | [] => none
  | b :: bs =>
    if b.length < 10 then some ((b ++ [item]) :: bs)
    else (placeRelaxed item bs).map (b :: ·)

/-- One item of `distributeItems`: the constrained pass, then the relaxed
pass, and the item is silently dropped when both fail. -/
def placeItem (item : Candidate) (batches : List (List Candidate)) :
    List (List Candidate) :=
  match placeConstrained item batches with
  | some bs => bs
  | none =>
    match placeRelaxed item batches with
    | some bs => bs
    | none => batches

/-- `distributeItems`: place each item in turn into the mutable batches. -/
def distributeItems (items : List Candidate) (batches : List (List Candidate)) :
    List (List Candidate) :=
  items.foldl (fun bs item => placeItem item bs) batches

/-- The batches `mixFeedItems` builds: `floor(n / 10)` empty batches, long
items distributed first, then short items. -/
def mixBatches (l : List Candidate) : List (List Candidate) :=
  let split := splitByMedian l
  let batches := List.replicate (l.length / 10) ([] : List Candidate)
  distributeItems split.1 (distributeItems split.2 batches)

/-- The `{id, type}` reference a section keeps for a candidate. -/
def itemRef (c : Candidate) : Item := ⟨c.id, c.type⟩

/-- A single-item `"long"` section. -/
def longSec (c : Candidate) : Section := ⟨[itemRef c], "long"⟩

/-- The `"quick links"` section over a batch's overflow items. -/
def quickSec (batch : List Candidate) : Section := ⟨batch.map itemRef, "quick links"⟩

/-- The sections emitted for a batch: the loop reads `batch[0]`..`batch[4]`
unconditionally, so a batch with fewer than 5 members hits an undefined
reference, modelled as `none`. -/
def sectionsOfBatch (batch : List Candidate) : Option (List Section) :=
  ((List.range 5).mapM (fun i => (batch.get? i).map longSec)).map
    (fun longs => longs ++ [quickSec (batch.drop 5)])

/-- `mixFeedItems`: distribute into batches and emit each batch's sections
in order; `none` models the undefined-reference fault on a thin batch. -/
def mixFeedItems (l : List Candidate) : Option (List Section) :=
  ((mixBatches l).mapM sectionsOfBatch).map List.flatten

/-- `MAX_FEED_ITEMS`. -/
def MAX_FEED_ITEMS : Nat := 500

/-- The fixed 24-hour expiry horizon added to every rank-score (ms). -/
def EXPIRY_MS : Int := 86400000

/-- Modelled from the spec: the per-user Redis sorted set behind the feed
store, an association of serialized sections to 64-bit integer rank-scores
kept in ascending score order (serialization is modelled as the identity
on `Section`). -/
abbrev Store : Type := List (Section × Int)

/-- Modelled from the spec: one member of a `ZADD` batch — any existing
entry for the member is replaced, and the entry enters at its score's
position in the ascending order. -/
def zaddOne (st : Store) (p : Section × Int) : Store :=
  List.orderedInsert (fun a b => a.2 ≤ b.2) p (st.filter (fun e => !(e.1 == p.1)))

/-- Modelled from the spec: `ZADD` with a batch of score/member pairs,
applied in order. -/
def zadd (pairs : List (Section × Int)) (st : Store) : Store :=
  pairs.foldl zaddOne st

/-- Modelled from the spec: `ZREMRANGEBYRANK key 0 -(max+1)` — trim the set
to its highest-scoring `max` members. -/
def trimTop (max : Nat) (st : Store) : Store :=
  st.drop (st.length - max)

/-- Modelled from the spec: `ZREMRANGEBYSCORE key -inf now` — remove every
member whose score is at or below the current time. -/
def removeExpired (now : Int) (st : Store) : Store :=
  st.filter (fun e => decide (now < e.2))

/-- The score/member pairs `appendSectionsToFeed` builds from position `i`
on: section at offset `j` gets rank-score `now + (i + j) + 86400000`. -/
def scoredFrom (now : Int) : Nat → List Section → List (Section × Int)
  | _, [] => []
  | i, s :: rest => (s, now + i + EXPIRY_MS) :: scoredFrom now (i + 1) rest

/-- `appendSectionsToFeed`: add the scored sections, trim to the top 500 by
rank-score, then drop entries whose rank-score is at or below now. -/
def appendSectionsToFeed (now : Int) (sections : List Section) (st : Store) :
    Store :=
  removeExpired now (trimTop MAX_FEED_ITEMS (zadd (scoredFrom now 0 sections) st))

/-- `getJustReadFeedSections`: entries in descending rank-score order below
the optional ceiling (exclusive through the `- 1` offset; a ceiling of 0 is
falsy in JavaScript and means unbounded), capped at `limit`. -/
def getJustReadFeedSections (limit : Nat) (maxScore : Option Int) (st : Store) :
    List (Section × Int) :=
  let ceiled :=
    match maxScore with
    | none => st
    | some m => if m = 0 then st else st.filter (fun e => decide (e.2 ≤ m - 1))
  ceiled.reverse.take limit

/-- The collaborator responses one job invocation consumes: the active-user
lookup, the two source queries, the subscription lookup, the scoring call,
and the current time. -/
structure Env where
  user : Option String
  libraryItems : List LibraryItem
  subscriptions : List Subscription
  publicItems : List PublicItem
  newScores : ScoreOracle
  now : Int

/-- `updateJustReadFeed`: the job entry point over its collaborators'
responses and the per-user store; `none` models the mixer's
undefined-reference fault, `some` a normal termination with the resulting
store state. -/
def updateJustReadFeed (env : Env) (st : Store) : Option Store :=
  match env.user with
  | none => some st
  | some _ =>
    let candidates := selectCandidates env.libraryItems env.subscriptions env.publicItems
    let ranked := rankCandidates env.newScores candidates
    if ranked.isEmpty then some st
    else (mixFeedItems ranked).map (fun secs => appendSectionsToFeed env.now secs st)

/-! ### Concrete example inputs used by witnesses and counterexamples -/

/-- A minimal candidate with the given identifier, title, word count and
precomputed score; every optional field absent. -/
def mkCand (id title : String) (wc : Nat) (score : Option Int) : Candidate :=
  { id := id, title := title, url := "", type := "library_item", thumbnail := none,
    previewContent := none, languageCode := "en", author := none, dir := "ltr",
    date := 0, topic := none, wordCount := wc, siteIcon := none, siteName := none,
    folder := none, score := score, publishedAt := none, subscription := none }

/-- A candidate with distinct author, site name and subscription derived
from its identifier. -/
def exCand (id : String) (wc : Nat) : Candidate :=
  { mkCand id ("t" ++ id) wc none with
    author := some ("au" ++ id), siteName := some ("si" ++ id),
    subscription := some ⟨"su" ++ id, "rss"⟩ }

/-- A minimal private library item. -/
def mkLib (id : String) : LibraryItem :=
  { id := id, title := "t", originalUrl := "", thumbnail := none, description := none,
    itemLanguage := none, author := none, directionality := none, createdAt := 0,
    topic := none, wordCount := 5, siteName := none, siteIcon := none, folder := none,
    score := none, publishedAt := none, subscription := none }

/-- A minimal public inventory item. -/
def mkPub (n : Nat) : PublicItem :=
  { id := toString n, title := "p", url := "", thumbnail := none, previewContent := none,
    languageCode := none, author := none, dir := none, createdAt := 0, topic := none,
    wordCount := 7, siteIcon := none, publishedAt := none, source := ⟨"s", "rss"⟩ }

/-- Five private unseen items, as in the worked example of the spec. -/
def exLibs : List LibraryItem := ["l1", "l2", "l3", "l4", "l5"].map mkLib

/-- Fifty public unseen items, as in the worked example of the spec. -/
def exPubs : List PublicItem := (List.range 50).map mkPub

/-- The oracle of the examples: the scoring collaborator returns nothing. -/
def exOracle : ScoreOracle := fun _ => none

/-- Two candidates, fewer than ten. -/
def exC5 : List Candidate := [mkCand "a" "t" 3 none, mkCand "b" "u" 9 none]

/-- The collaborator responses of the C9 witness: an active user with no
unseen items anywhere. -/
def exEnv : Env :=
  { user := some "u", libraryItems := [], subscriptions := [], publicItems := [],
    newScores := exOracle, now := 0 }

/-- The median index claimed by the spec: the lower-middle index
`length / 2 - 1` for an even length, the middle `length / 2` otherwise. -/
def claimedMedianIdx (n : Nat) : Nat :=
  if n % 2 = 0 then n / 2 - 1 else n / 2

/-- The two candidates of the C3 counterexample, word counts 1 and 3. -/
def cexC3 : List Candidate := [mkCand "a" "t" 1 none, mkCand "b" "u" 3 none]

/-- Eleven candidates with distinct precomputed scores. -/
def exC4 : List Candidate :=
  [mkCand "a" "t" 1 (some 4), mkCand "b" "t" 2 (some 11), mkCand "c" "t" 3 (some 2),
    mkCand "d" "t" 4 (some 9), mkCand "e" "t" 5 (some 0), mkCand "f" "t" 6 (some 7),
    mkCand "g" "t" 7 (some 5), mkCand "h" "t" 8 (some 10), mkCand "i" "t" 9 (some 1),
    mkCand "j" "t" 10 (some 8), mkCand "k" "t" 11 (some 3)]

/-- No two items at different positions of the batch with different
identifiers share a title. -/
def NoTitleClash (b : List Candidate) : Prop :=
  List.Pairwise (fun x y => x.id ≠ y.id → x.title ≠ y.title) b

/-- The diversity bounds claimed for a batch: distinct-id items never share
a title, and at most 2 items share an author, a site name or a
subscription name (absent values compare equal, as in the code). -/
def DiverseBatch (b : List Candidate) : Prop :=
  NoTitleClash b ∧
  (∀ x ∈ b, b.countP (fun y => y.author == x.author) ≤ 2) ∧
  (∀ x ∈ b, b.countP (fun y => y.siteName == x.siteName) ≤ 2) ∧
  (∀ x ∈ b, b.countP (fun y => y.subscription.map Sub.name ==
    x.subscription.map Sub.name) ≤ 2)

instance (b : List Candidate) : Decidable (DiverseBatch b) := by
  unfold DiverseBatch NoTitleClash
  infer_instance

/-- Ten candidates sharing one title, with distinct identifiers. -/
def cexC2 : List Candidate :=
  ["a", "b", "c", "d", "e", "f", "g", "h", "i", "j"].map
    (fun s => mkCand s "t" 100 none)

/-- The total number of items held by the batches. -/
def sumLens (bs : List (List Candidate)) : Nat := (bs.map List.length).sum

/-- Ten candidates, pairwise distinct in every diversity attribute, word
counts 0 through 9. -/
def exC10 : List Candidate :=
  [exCand "a" 0, exCand "b" 1, exCand "c" 2, exCand "d" 3, exCand "e" 4,
    exCand "f" 5, exCand "g" 6, exCand "h" 7, exCand "i" 8, exCand "j" 9]

/-- The single batch the mixer builds from `exC10`: the five long items in
order, then the five short items. -/
def exB10 : List Candidate :=
  [exCand "f" 5, exCand "g" 6, exCand "h" 7, exCand "i" 8, exCand "j" 9,
    exCand "a" 0, exCand "b" 1, exCand "c" 2, exCand "d" 3, exCand "e" 4]

/-- The store representation invariant: entries ascending by rank-score. -/
def StoreSorted (st : Store) : Prop :=
  List.Pairwise (fun a b : Section × Int => a.2 ≤ b.2) st

/-- The two concrete sections of the C7 witness. -/
def exSecLong : Section := ⟨[⟨"a", "library_item"⟩], "long"⟩

/-- A second, distinct concrete section. -/
def exSecQuick : Section := ⟨[], "quick links"⟩

/-- A sequence of append operations, each a (time, sections) pair, applied
to a store in order. -/
def applyAppends : List (Int × List Section) → Store → Store
  | [], st => st
  | op :: rest, st => applyAppends rest (appendSectionsToFeed op.1 op.2 st)

/-! ### C1 — Candidate Selector bounds -/

/-- C1 (counterexample): with 5 private unseen items and 50 public unseen
items the selector returns 55 candidates, 50 of them public-origin — not
the claimed 35 total with a 30-candidate public cap. -/
theorem c1_counterexample :
    ((selectCandidates exLibs [] exPubs).filter (fun c => c.type == "public_item")).length = 50 ∧
    (selectCandidates exLibs [] exPubs).length = 55 := by
  constructor <;> rfl

/-- C1 (amended): the selector returns at most 70 private-origin
candidates, at most `100 - privateCount` public-origin candidates, and at
most 100 candidates in total, for every outcome of the source queries. -/
theorem c1_selector_bounds (libs : List LibraryItem) (subs : List Subscription)
    (pubs : List PublicItem) :
    ((selectCandidates libs subs pubs).filter (fun c => c.type == "library_item")).length ≤ 70 ∧
    ((selectCandidates libs subs pubs).filter (fun c => c.type == "public_item")).length ≤
      100 - ((selectCandidates libs subs pubs).filter (fun c => c.type == "library_item")).length ∧
    (selectCandidates libs subs pubs).length ≤ 100 := by
  have hsel : selectCandidates libs subs pubs =
      (libs.map (libraryItemToCandidate · subs)).take 70 ++
        (pubs.map publicItemToCandidate).take
          (100 - ((libs.map (libraryItemToCandidate · subs)).take 70).length) := rfl
  have hpriv : ∀ c ∈ (libs.map (libraryItemToCandidate · subs)).take 70,
      c.type = "library_item" := by
    intro c hc
    obtain ⟨li, _, rfl⟩ := List.mem_map.mp (List.mem_of_mem_take hc)
    rfl
  have hpub : ∀ c ∈ (pubs.map publicItemToCandidate).take
      (100 - ((libs.map (libraryItemToCandidate · subs)).take 70).length),
      c.type = "public_item" := by
    intro c hc
    obtain ⟨pi, _, rfl⟩ := List.mem_map.mp (List.mem_of_mem_take hc)
    rfl
  rw [hsel]
  rw [List.filter_append, List.filter_append]
  have e1 : ((libs.map (libraryItemToCandidate · subs)).take 70).filter
      (fun c => c.type == "library_item") =
      (libs.map (libraryItemToCandidate · subs)).take 70 :=
    List.filter_eq_self.mpr (fun c hc => by rw [hpriv c hc]; rfl)
  have e2 : ((pubs.map publicItemToCandidate).take
      (100 - ((libs.map (libraryItemToCandidate · subs)).take 70).length)).filter
      (fun c => c.type == "library_item") = [] := by
    rw [List.filter_eq_nil_iff]
    intro c hc
    rw [hpub c hc]
    decide
  have e3 : ((pubs.map publicItemToCandidate).take
      (100 - ((libs.map (libraryItemToCandidate · subs)).take 70).length)).filter
      (fun c => c.type == "public_item") =
      (pubs.map publicItemToCandidate).take
        (100 - ((libs.map (libraryItemToCandidate · subs)).take 70).length) :=
    List.filter_eq_self.mpr (fun c hc => by rw [hpub c hc]; rfl)
  have e4 : ((libs.map (libraryItemToCandidate · subs)).take 70).filter
      (fun c => c.type == "public_item") = [] := by
    rw [List.filter_eq_nil_iff]
    intro c hc
    rw [hpriv c hc]
    decide
  rw [e1, e2, e3, e4]
  have l1 : ((libs.map (libraryItemToCandidate · subs)).take 70).length ≤ 70 :=
    List.length_take_le 70 _
  have l2 : ((pubs.map publicItemToCandidate).take
      (100 - ((libs.map (libraryItemToCandidate · subs)).take 70).length)).length ≤
      100 - ((libs.map (libraryItemToCandidate · subs)).take 70).length :=
    List.length_take_le _ _
  simp only [List.append_nil, List.nil_append, List.length_append]
  omega

/-! ### C5 — Ranker identity on small lists -/

/-- C5: a candidate list with at most 10 entries is returned unchanged by
the ranker, and no request is sent to the scoring collaborator. -/
theorem c5_rank_small_identity (o : ScoreOracle) (candidates : List Candidate)
    (h : candidates.length ≤ 10) :
    rankCandidates o candidates = candidates ∧ rankRequest candidates = none := by
  constructor
  · rw [rankCandidates, if_pos h]
  · rw [rankRequest, if_pos h]

/-- C5 witness: the two-candidate list is concretely returned unchanged. -/
theorem c5_rank_small_identity_witness :
    rankCandidates exOracle exC5 = exC5 ∧ rankRequest exC5 = none :=
  c5_rank_small_identity exOracle exC5 (by decide)

/-! ### C9 — empty ranking ends the job without a write -/

/-- C9: when ranking yields zero candidates the job terminates normally
(no fault) and the per-user store is unchanged. -/
theorem c9_empty_result_no_write (env : Env) (st : Store)
    (h : rankCandidates env.newScores
        (selectCandidates env.libraryItems env.subscriptions env.publicItems) = []) :
    updateJustReadFeed env st = some st := by
  unfold updateJustReadFeed
  cases hu : env.user with
  | none => rfl
  | some u => simp [h]

/-- C9 witness: with no candidates the job concretely leaves the empty
store untouched and does not fault. -/
theorem c9_empty_result_no_write_witness :
    updateJustReadFeed exEnv [] = some [] :=
  c9_empty_result_no_write exEnv [] (by rfl)

/-! ### C3 — median word count and the short/long split -/

/-- C3 (counterexample): on a two-candidate list with word counts 1 and 3
the code's median is 3, the element at index `length / 2 = 1` of the sorted
sequence, not the claimed lower-middle element 1 at index `length / 2 - 1 = 0`. -/
theorem c3_counterexample :
    medianWordCount cexC3 ≠ (sortedWordCounts cexC3)[claimedMedianIdx cexC3.length]? := by
  decide

/-- The split loop is the pair of filters, relative order preserved. -/
theorem splitByMedian_go (m : Nat) (l : List Candidate) : ∀ s0 l0 : List Candidate,
    l.foldl
      (fun acc item =>
        if item.wordCount < m then (acc.1 ++ [item], acc.2) else (acc.1, acc.2 ++ [item]))
      (s0, l0) =
      (s0 ++ l.filter (fun c => decide (c.wordCount < m)),
        l0 ++ l.filter (fun c => !decide (c.wordCount < m))) := by
  induction l with
  | nil => intro s0 l0; simp
  | cons a t ih =>
    intro s0 l0
    by_cases hc : a.wordCount < m <;>
      simp [List.foldl_cons, hc, ih, List.filter_cons]

/-- `splitByMedian` unfolded at a defined median. -/
theorem splitByMedian_eq (l : List Candidate) (m : Nat)
    (hm : medianWordCount l = some m) :
    splitByMedian l =
      (l.filter (fun c => decide (c.wordCount < m)),
        l.filter (fun c => !decide (c.wordCount < m))) := by
  unfold splitByMedian
  rw [hm]
  simpa using splitByMedian_go m l [] []

/-- C3 (amended): for a non-empty candidate list, the code's median word
count is the element at index `length / 2` of the sorted word-count
sequence — the upper-middle element for an even length, not the claimed
lower-middle one — and the split sends word counts strictly below the
median to the short group and the rest to the long group, each a
subsequence of the input (relative order preserved). -/
theorem c3_median_and_split (l : List Candidate) (hne : l ≠ []) :
    (∃ h : l.length / 2 < (sortedWordCounts l).length,
        medianWordCount l = some ((sortedWordCounts l).get ⟨l.length / 2, h⟩)) ∧
    List.Sorted (· ≤ ·) (sortedWordCounts l) ∧
    List.Perm (sortedWordCounts l) (l.map (·.wordCount)) ∧
    ∀ m, medianWordCount l = some m →
      (splitByMedian l).1 = l.filter (fun c => decide (c.wordCount < m)) ∧
      (splitByMedian l).2 = l.filter (fun c => !decide (c.wordCount < m)) ∧
      List.Sublist (splitByMedian l).1 l ∧ List.Sublist (splitByMedian l).2 l := by
  have hlen : (sortedWordCounts l).length = l.length := by
    unfold sortedWordCounts
    rw [(List.perm_insertionSort (· ≤ ·) (l.map (·.wordCount))).length_eq, List.length_map]
  have hpos : 0 < l.length := List.length_pos.mpr hne
  have hidx : l.length / 2 < (sortedWordCounts l).length := by
    rw [hlen]
    exact Nat.div_lt_self hpos (by omega)
  refine ⟨⟨hidx, ?_⟩, ?_, ?_, ?_⟩
  · rw [medianWordCount, List.getElem?_eq_getElem hidx]
    rfl
  · exact List.sorted_insertionSort (· ≤ ·) (l.map (·.wordCount))
  · exact List.perm_insertionSort (· ≤ ·) (l.map (·.wordCount))
  · intro m hm
    rw [splitByMedian_eq l m hm]
    exact ⟨rfl, rfl, List.filter_sublist l, List.filter_sublist l⟩

/-- C3 witness: the amended statement evaluated on the concrete
two-candidate list. -/
theorem c3_median_and_split_witness :
    (∃ h : cexC3.length / 2 < (sortedWordCounts cexC3).length,
        medianWordCount cexC3 = some ((sortedWordCounts cexC3).get ⟨cexC3.length / 2, h⟩)) ∧
    List.Sorted (· ≤ ·) (sortedWordCounts cexC3) ∧
    List.Perm (sortedWordCounts cexC3) (cexC3.map (·.wordCount)) ∧
    ∀ m, medianWordCount cexC3 = some m →
      (splitByMedian cexC3).1 = cexC3.filter (fun c => decide (c.wordCount < m)) ∧
      (splitByMedian cexC3).2 = cexC3.filter (fun c => !decide (c.wordCount < m)) ∧
      List.Sublist (splitByMedian cexC3).1 cexC3 ∧ List.Sublist (splitByMedian cexC3).2 cexC3 :=
  c3_median_and_split cexC3 (by decide)

/-! ### C4 — Ranker on large lists -/

/-- C4: on a candidate list of more than 10 entries with pairwise distinct
merged scores, the ranker's output is a permutation of the input sorted
non-decreasing by merged score (missing scores count as zero), and the
request sent to the scoring collaborator contains no candidate that
already carries a precomputed score. -/
theorem c4_rank_sorts (o : ScoreOracle) (candidates : List Candidate)
    (hlen : 10 < candidates.length)
    (_hdist : (candidates.map
      (fun c => mergedScore o (preScores candidates) c.id)).Nodup) :
    List.Perm (rankCandidates o candidates) candidates ∧
    List.Sorted
      (fun a b => mergedScore o (preScores candidates) a.id ≤
        mergedScore o (preScores candidates) b.id)
      (rankCandidates o candidates) ∧
    ∀ r, rankRequest candidates = some r → ∀ c ∈ r, c.score = none := by
  have hn : ¬ candidates.length ≤ 10 := by omega
  refine ⟨?_, ?_, ?_⟩
  · rw [rankCandidates, if_neg hn]
    exact List.perm_insertionSort _ _
  · rw [rankCandidates, if_neg hn]
    haveI : IsTotal Candidate
        (fun a b => mergedScore o (preScores candidates) a.id ≤
          mergedScore o (preScores candidates) b.id) :=
      ⟨fun a b => Int.le_total _ _⟩
    haveI : IsTrans Candidate
        (fun a b => mergedScore o (preScores candidates) a.id ≤
          mergedScore o (preScores candidates) b.id) :=
      ⟨fun _ _ _ hab hbc => le_trans hab hbc⟩
    exact List.sorted_insertionSort _ _
  · intro r hr c hc
    rw [rankRequest, if_neg hn] at hr
    obtain rfl : candidates.filter (fun c => c.score.isNone) = r := by
      simpa using hr
    have := (List.mem_filter.mp hc).2
    exact Option.isNone_iff_eq_none.mp (by simpa using this)

/-- C4 witness: the ranker concretely sorts the eleven-candidate list. -/
theorem c4_rank_sorts_witness :
    List.Perm (rankCandidates exOracle exC4) exC4 ∧
    List.Sorted
      (fun a b => mergedScore exOracle (preScores exC4) a.id ≤
        mergedScore exOracle (preScores exC4) b.id)
      (rankCandidates exOracle exC4) ∧
    ∀ r, rankRequest exC4 = some r → ∀ c ∈ r, c.score = none :=
  c4_rank_sorts exOracle exC4 (by decide) (by decide)

/-! ### C2 — batch diversity -/

/-- C2 (counterexample): on ten same-title candidates the mixer's single
batch is filled through the relaxed overflow path and violates every
diversity bound — in particular two items with different identifiers share
a title. -/
theorem c2_counterexample : ∃ b ∈ mixBatches cexC2, ¬ DiverseBatch b := by
  decide

/-- Extending a batch by an item whose occurrence count for the attribute
`f` is at most 1 keeps every count at 2 or below. -/
theorem countP_extend (f : Candidate → Option String) (b : List Candidate)
    (i : Candidate)
    (hb : ∀ x ∈ b, b.countP (fun y => f y == f x) ≤ 2)
    (hi : b.countP (fun y => f y == f i) ≤ 1) :
    ∀ x ∈ b ++ [i], (b ++ [i]).countP (fun y => f y == f x) ≤ 2 := by
  intro x hx
  rcases List.mem_append.mp hx with hxb | hxi
  · rw [List.countP_append]
    by_cases heq : f i = f x
    · have hcongr : b.countP (fun y => f y == f x) = b.countP (fun y => f y == f i) := by
        rw [heq]
      have hone : List.countP (fun y => f y == f x) [i] = 1 := by
        have htrue : (f i == f x) = true := beq_iff_eq.mpr heq
        simp [List.countP, List.countP.go, htrue]
      omega
    · have hzero : List.countP (fun y => f y == f x) [i] = 0 := by
        have hfalse : (f i == f x) = false := beq_eq_false_iff_ne.mpr heq
        simp [List.countP, List.countP.go, hfalse]
      have := hb x hxb
      omega
  · have hxi2 : x = i := by simpa using hxi
    subst hxi2
    rw [List.countP_append]
    have hone : List.countP (fun y => f y == f x) [x] = 1 := by
      simp [List.countP, List.countP.go]
    omega

/-- C2 (amended): a batch extended only through the diversity check keeps
the claimed bounds — `checkConstraints` preserves `DiverseBatch`; the
relaxed overflow path of `distributeItems` is what breaks them (see the
counterexample). -/
theorem c2_check_preserves_diversity (b : List Candidate) (i : Candidate)
    (hd : DiverseBatch b) (hc : checkConstraints b i = true) :
    DiverseBatch (b ++ [i]) := by
  rw [checkConstraints, decide_eq_true_eq] at hc
  obtain ⟨htitle, hauthor, hsite, hsub⟩ := hc
  rw [← List.countP_eq_length_filter] at htitle hauthor hsite hsub
  obtain ⟨hdt, hda, hds, hdn⟩ := hd
  refine ⟨?_, ?_, ?_, ?_⟩
  · rw [NoTitleClash, List.pairwise_append]
    refine ⟨hdt, List.pairwise_singleton _ _, ?_⟩
    intro x hxb y hyi hne
    have hyi2 : y = i := by simpa using hyi
    have hzero : b.countP (fun c => c.title == i.title) = 0 := by omega
    have hx := List.countP_eq_zero.mp hzero x hxb
    rw [hyi2]
    simpa using hx
  · exact countP_extend Candidate.author b i hda (by omega)
  · exact countP_extend Candidate.siteName b i hds (by omega)
  · refine countP_extend (fun c => c.subscription.map Sub.name) b i hdn ?_
    have h2 : b.countP
        (fun y => y.subscription.map Sub.name == i.subscription.map Sub.name) ≤ 1 := by
      omega
    simpa using h2

/-- C2 witness: the check concretely admits a second, fully distinct item
into a singleton batch and the extended batch satisfies the bounds. -/
theorem c2_check_preserves_diversity_witness :
    DiverseBatch ([exCand "a" 1] ++ [exCand "b" 2]) :=
  c2_check_preserves_diversity [exCand "a" 1] (exCand "b" 2) (by decide) (by decide)

/-! ### Distribution machinery shared by C6 and C10 -/

/-- A successful constrained placement splits the batch list at the first
batch that accepts the item. -/
theorem placeConstrained_eq (item : Candidate) :
    ∀ {bs bsr : List (List Candidate)}, placeConstrained item bs = some bsr →
      ∃ pre b post, bs = pre ++ b :: post ∧ bsr = pre ++ (b ++ [item]) :: post ∧
        b.length < 5 ∧ checkConstraints b item = true := by
  intro bs
  induction bs with
  | nil => intro bsr h; simp [placeConstrained] at h
  | cons b rest ih =>
    intro bsr h
    rw [placeConstrained] at h
    by_cases hc : b.length < 5 ∧ checkConstraints b item = true
    · rw [if_pos hc] at h
      obtain rfl : (b ++ [item]) :: rest = bsr := by simpa using h
      exact ⟨[], b, rest, rfl, rfl, hc.1, hc.2⟩
    · rw [if_neg hc] at h
      obtain ⟨restr, hrest, rfl⟩ := Option.map_eq_some'.mp h
      obtain ⟨pre, b0, post, hsplit, hres, h5, hck⟩ := ih hrest
      exact ⟨b :: pre, b0, post, by rw [hsplit]; rfl, by rw [hres]; rfl, h5, hck⟩

/-- A successful relaxed placement splits the batch list at the first batch
with fewer than 10 members. -/
theorem placeRelaxed_eq (item : Candidate) :
    ∀ {bs bsr : List (List Candidate)}, placeRelaxed item bs = some bsr →
      ∃ pre b post, bs = pre ++ b :: post ∧ bsr = pre ++ (b ++ [item]) :: post ∧
        b.length < 10 := by
  intro bs
  induction bs with
  | nil => intro bsr h; simp [placeRelaxed] at h
  | cons b rest ih =>
    intro bsr h
    rw [placeRelaxed] at h
    by_cases hc : b.length < 10
    · rw [if_pos hc] at h
      obtain rfl : (b ++ [item]) :: rest = bsr := by simpa using h
      exact ⟨[], b, rest, rfl, rfl, hc⟩
    · rw [if_neg hc] at h
      obtain ⟨restr, hrest, rfl⟩ := Option.map_eq_some'.mp h
      obtain ⟨pre, b0, post, hsplit, hres, h10⟩ := ih hrest
      exact ⟨b :: pre, b0, post, by rw [hsplit]; rfl, by rw [hres]; rfl, h10⟩

/-- The relaxed pass fails exactly when every batch is full. -/
theorem placeRelaxed_none (item : Candidate) :
    ∀ bs : List (List Candidate),
      placeRelaxed item bs = none ↔ ∀ b ∈ bs, ¬ b.length < 10 := by
  intro bs
  induction bs with
  | nil => simp [placeRelaxed]
  | cons b rest ih =>
    rw [placeRelaxed]
    by_cases hc : b.length < 10
    · simp [hc]
    · simp only [hc, if_false, Option.map_eq_none', ih, List.mem_cons]
      constructor
      · intro hall x hx
        rcases hx with rfl | hxr
        · omega
        · exact hall x hxr
      · intro hall x hx
        exact hall x (Or.inr hx)

/-- The constrained pass fails when no batch passes its guard. -/
theorem placeConstrained_none (item : Candidate) :
    ∀ bs : List (List Candidate),
      (∀ b ∈ bs, ¬ (b.length < 5 ∧ checkConstraints b item = true)) →
      placeConstrained item bs = none := by
  intro bs
  induction bs with
  | nil => intro _; rfl
  | cons b rest ih =>
    intro h
    rw [placeConstrained, if_neg (h b (List.mem_cons_self b rest)),
      ih (fun x hx => h x (List.mem_cons_of_mem b hx))]
    rfl

/-- With every batch full, an item is dropped and the batches unchanged. -/
theorem placeItem_of_full (item : Candidate) (bs : List (List Candidate))
    (h : ∀ b ∈ bs, ¬ b.length < 10) : placeItem item bs = bs := by
  have hc : placeConstrained item bs = none :=
    placeConstrained_none item bs (fun b hb hcc => h b hb (by omega))
  have hr : placeRelaxed item bs = none := (placeRelaxed_none item bs).mpr h
  rw [placeItem, hc, hr]

/-- With some batch below 10 members, the item lands in exactly one batch. -/
theorem placeItem_progress (item : Candidate) (bs : List (List Candidate))
    (hex : ∃ b ∈ bs, b.length < 10) :
    ∃ pre b post, bs = pre ++ b :: post ∧
      placeItem item bs = pre ++ (b ++ [item]) :: post ∧ b.length < 10 := by
  cases hpc : placeConstrained item bs with
  | some bsr =>
    obtain ⟨pre, b, post, h1, h2, h5, _⟩ := placeConstrained_eq item hpc
    have hpi : placeItem item bs = bsr := by rw [placeItem, hpc]
    exact ⟨pre, b, post, h1, by rw [hpi, h2], by omega⟩
  | none =>
    cases hpr : placeRelaxed item bs with
    | some bsr =>
      obtain ⟨pre, b, post, h1, h2, h10⟩ := placeRelaxed_eq item hpr
      have hpi : placeItem item bs = bsr := by rw [placeItem, hpc, hpr]
      exact ⟨pre, b, post, h1, by rw [hpi, h2], h10⟩
    | none =>
      obtain ⟨b, hb, hblen⟩ := hex
      exact absurd hblen ((placeRelaxed_none item bs).mp hpr b hb)

/-- Batches bounded by 10 hold at most `10 ×` their number of items. -/
theorem sumLens_le : ∀ bs : List (List Candidate),
    (∀ b ∈ bs, b.length ≤ 10) → sumLens bs ≤ 10 * bs.length := by
  intro bs
  induction bs with
  | nil => intro _; simp [sumLens]
  | cons b rest ih =>
    intro h
    have hb := h b (List.mem_cons_self b rest)
    have hr := ih (fun x hx => h x (List.mem_cons_of_mem b hx))
    simp only [sumLens, List.map_cons, List.sum_cons, List.length_cons] at *
    omega

/-- Full batches hold exactly `10 ×` their number of items. -/
theorem sumLens_full : ∀ bs : List (List Candidate),
    (∀ b ∈ bs, b.length = 10) → sumLens bs = 10 * bs.length := by
  intro bs
  induction bs with
  | nil => intro _; simp [sumLens]
  | cons b rest ih =>
    intro h
    have hb := h b (List.mem_cons_self b rest)
    have hr := ih (fun x hx => h x (List.mem_cons_of_mem b hx))
    simp only [sumLens, List.map_cons, List.sum_cons, List.length_cons] at *
    omega

/-- Batches bounded by 10 whose total reaches `10 ×` their number are all
exactly full. -/
theorem full_of_sumLens : ∀ bs : List (List Candidate),
    (∀ b ∈ bs, b.length ≤ 10) → sumLens bs = 10 * bs.length →
    ∀ b ∈ bs, b.length = 10 := by
  intro bs
  induction bs with
  | nil => intro _ _ b hb; simp at hb
  | cons b rest ih =>
    intro h hs x hx
    have hb := h b (List.mem_cons_self b rest)
    have hrle := sumLens_le rest (fun y hy => h y (List.mem_cons_of_mem b hy))
    simp only [sumLens, List.map_cons, List.sum_cons, List.length_cons] at hs
    have hbeq : b.length = 10 := by simp only [sumLens] at hrle; omega
    rcases List.mem_cons.mp hx with rfl | hxr
    · exact hbeq
    · refine ih (fun y hy => h y (List.mem_cons_of_mem b hy)) ?_ x hxr
      simp only [sumLens]
      omega

/-- The two-phase distribution over batches bounded by 10: bounds are
preserved, the number of batches is unchanged, and the total held is the
incoming total plus the incoming items, saturating at full capacity. -/
theorem distribute_spec : ∀ (items : List Candidate) (bs : List (List Candidate)),
    (∀ b ∈ bs, b.length ≤ 10) →
    (∀ b ∈ distributeItems items bs, b.length ≤ 10) ∧
    (distributeItems items bs).length = bs.length ∧
    sumLens (distributeItems items bs) =
      min (sumLens bs + items.length) (10 * bs.length) := by
  intro items
  induction items with
  | nil =>
    intro bs h
    have := sumLens_le bs h
    refine ⟨h, rfl, ?_⟩
    simp only [distributeItems, List.foldl_nil, List.length_nil]
    omega
  | cons item rest ih =>
    intro bs h
    have hstep : distributeItems (item :: rest) bs =
        distributeItems rest (placeItem item bs) := rfl
    by_cases hfull : ∀ b ∈ bs, ¬ b.length < 10
    · have hfix : placeItem item bs = bs := placeItem_of_full item bs hfull
      rw [hstep, hfix]
      obtain ⟨h1, h2, h3⟩ := ih bs h
      refine ⟨h1, h2, ?_⟩
      have heq : ∀ b ∈ bs, b.length = 10 := by
        intro b hb
        have := h b hb
        have := hfull b hb
        omega
      have hsf := sumLens_full bs heq
      rw [h3]
      simp only [List.length_cons]
      omega
    · push_neg at hfull
      obtain ⟨pre, b, post, hsplit, hplace, hblt⟩ :=
        placeItem_progress item bs hfull
      have hnew : ∀ x ∈ pre ++ (b ++ [item]) :: post, x.length ≤ 10 := by
        intro x hx
        rcases List.mem_append.mp hx with hxp | hxc
        · exact h x (by rw [hsplit]; exact List.mem_append_left _ hxp)
        · rcases List.mem_cons.mp hxc with rfl | hxpost
          · simp only [List.length_append, List.length_singleton]
            omega
          · exact h x
              (by rw [hsplit]; exact List.mem_append_right _ (List.mem_cons_of_mem _ hxpost))
      obtain ⟨h1, h2, h3⟩ := ih _ hnew
      have hlen : (pre ++ (b ++ [item]) :: post).length = bs.length := by
        rw [hsplit]
        simp
      have hsum : sumLens (pre ++ (b ++ [item]) :: post) = sumLens bs + 1 := by
        rw [hsplit]
        simp only [sumLens, List.map_append, List.sum_append, List.map_cons,
          List.sum_cons, List.length_append, List.length_singleton]
        omega
      rw [hstep, hplace]
      refine ⟨h1, by rw [h2, hlen], ?_⟩
      rw [h3, hsum, hlen]
      simp only [List.length_cons]
      omega

/-- `mixBatches` unfolded. -/
theorem mixBatches_eq (l : List Candidate) :
    mixBatches l =
      distributeItems (splitByMedian l).1
        (distributeItems (splitByMedian l).2
          (List.replicate (l.length / 10) ([] : List Candidate))) := rfl

/-- Every batch the mixer builds holds at most 10 items. -/
theorem mixBatches_le_ten (l : List Candidate) :
    ∀ b ∈ mixBatches l, b.length ≤ 10 := by
  rw [mixBatches_eq]
  have hrep : ∀ b ∈ List.replicate (l.length / 10) ([] : List Candidate),
      b.length ≤ 10 := by
    intro b hb
    rw [List.eq_of_mem_replicate hb]
    simp
  exact (distribute_spec _ _ (distribute_spec _ _ hrep).1).1

/-- A filter and its complement partition a list. -/
theorem filter_lengths (p : Candidate → Bool) : ∀ l : List Candidate,
    (l.filter p).length + (l.filter (fun a => !p a)).length = l.length := by
  intro l
  induction l with
  | nil => simp
  | cons a t ih =>
    by_cases hc : p a <;> simp [List.filter_cons, hc] <;> omega

/-- Splitting at the median partitions the input. -/
theorem split_lengths (l : List Candidate) :
    (splitByMedian l).1.length + (splitByMedian l).2.length = l.length := by
  cases hm : medianWordCount l with
  | none =>
    unfold splitByMedian
    rw [hm]
    simp
  | some m =>
    rw [splitByMedian_eq l m hm]
    exact filter_lengths (fun c => decide (c.wordCount < m)) l

/-- Empty batches hold no items. -/
theorem sumLens_replicate_nil : ∀ n : Nat,
    sumLens (List.replicate n ([] : List Candidate)) = 0 := by
  intro n
  induction n with
  | zero => rfl
  | succ k ihk =>
    rw [List.replicate_succ]
    simp only [sumLens, List.map_cons, List.sum_cons, List.length_nil] at *
    omega

/-- The distribution fills every allocated batch to exactly 10 items: the
allocated capacity `10 * (length / 10)` never exceeds the number of items. -/
theorem mixBatches_full (l : List Candidate) :
    ∀ b ∈ mixBatches l, b.length = 10 := by
  have hrep : ∀ b ∈ List.replicate (l.length / 10) ([] : List Candidate),
      b.length ≤ 10 := by
    intro b hb
    rw [List.eq_of_mem_replicate hb]
    simp
  have hrepsum : sumLens (List.replicate (l.length / 10) ([] : List Candidate)) = 0 :=
    sumLens_replicate_nil (l.length / 10)
  obtain ⟨hA1, hA2, hA3⟩ := distribute_spec (splitByMedian l).2 _ hrep
  obtain ⟨hB1, hB2, hB3⟩ := distribute_spec (splitByMedian l).1 _ hA1
  have hsplit := split_lengths l
  have hcap : 10 * (l.length / 10) ≤ l.length := by omega
  have hcount : (distributeItems (splitByMedian l).2
      (List.replicate (l.length / 10) ([] : List Candidate))).length = l.length / 10 := by
    rw [hA2, List.length_replicate]
  have hsum : sumLens (mixBatches l) = 10 * (l.length / 10) := by
    rw [mixBatches_eq, hB3, hA3, hrepsum, hcount]
    omega
  have hcount2 : (mixBatches l).length = l.length / 10 := by
    rw [mixBatches_eq, hB2, hcount]
  refine full_of_sumLens (mixBatches l) (mixBatches_le_ten l) ?_
  rw [hsum, hcount2]

/-! ### C6 and C10 — section emission -/

/-- A batch with at least 5 members emits its five leading single-item
`"long"` sections followed by the `"quick links"` section over the rest. -/
theorem sectionsOfBatch_eq (batch : List Candidate) (h : 5 ≤ batch.length) :
    sectionsOfBatch batch =
      some ((batch.take 5).map longSec ++ [quickSec (batch.drop 5)]) := by
  rcases batch with _ | ⟨a, _ | ⟨b, _ | ⟨c, _ | ⟨d, _ | ⟨e, rest⟩⟩⟩⟩⟩
  · simp at h
  · simp at h
  · simp at h
  · simp at h
  · simp at h
  · rfl

/-- C6: a mixer batch that received at least 5 items yields exactly the
five `"long"` sections over its first five items, in order, followed by
one `"quick links"` section over its items from position 5 on, which
number at most 5. -/
theorem c6_batch_sections (l : List Candidate) (batch : List Candidate)
    (hb : batch ∈ mixBatches l) (h5 : 5 ≤ batch.length) :
    sectionsOfBatch batch =
      some ((batch.take 5).map longSec ++ [quickSec (batch.drop 5)]) ∧
    (batch.take 5).length = 5 ∧ (batch.drop 5).length ≤ 5 := by
  have hle := mixBatches_le_ten l batch hb
  refine ⟨sectionsOfBatch_eq batch h5, ?_, ?_⟩
  · rw [List.length_take]
    omega
  · rw [List.length_drop]
    omega

/-- C6 witness: the concrete ten-candidate batch emits five long sections
and one five-item quick-links section. -/
theorem c6_batch_sections_witness :
    sectionsOfBatch exB10 =
      some ((exB10.take 5).map longSec ++ [quickSec (exB10.drop 5)]) ∧
    (exB10.take 5).length = 5 ∧ (exB10.drop 5).length ≤ 5 :=
  c6_batch_sections exC10 exB10 (by decide) (by decide)

/-- Batches of exactly 10 members produce defined sections whose
quick-links sections hold exactly 5 item references. -/
theorem mapM_sections (bs : List (List Candidate))
    (h : ∀ b ∈ bs, b.length = 10) :
    ∃ sss : List (List Section), bs.mapM sectionsOfBatch = some sss ∧
      ∀ sec ∈ sss.flatten, sec.layout = "quick links" → sec.items.length = 5 := by
  induction bs with
  | nil => exact ⟨[], rfl, by simp⟩
  | cons b rest ih =>
    have hb := h b (List.mem_cons_self b rest)
    obtain ⟨sss, hsss, hprop⟩ := ih (fun x hx => h x (List.mem_cons_of_mem b hx))
    have hsb := sectionsOfBatch_eq b (by omega)
    refine ⟨((b.take 5).map longSec ++ [quickSec (b.drop 5)]) :: sss, ?_, ?_⟩
    · rw [List.mapM_cons, hsb, hsss]
      rfl
    · intro sec hsec hq
      rw [List.flatten_cons] at hsec
      rcases List.mem_append.mp hsec with hhead | htail
      · rcases List.mem_append.mp hhead with hlong | hquick
        · obtain ⟨c, _, rfl⟩ := List.mem_map.mp hlong
          exact absurd hq (by simp [longSec])
        · obtain rfl : sec = quickSec (b.drop 5) := by simpa using hquick
          simp only [quickSec, List.length_map, List.length_drop]
          omega
      · exact hprop sec htail hq

/-- C10: with at least 10 candidates every allocated batch ends the
two-phase distribution holding exactly 10 items, so the section-emission
loop's first-five accesses are always defined — `mixFeedItems` returns
sections rather than faulting — and every `"quick links"` section holds
exactly 5 item references. -/
theorem c10_batches_full_no_fault (l : List Candidate) (_h10 : 10 ≤ l.length) :
    (∀ b ∈ mixBatches l, b.length = 10) ∧
    ∃ secs : List Section, mixFeedItems l = some secs ∧
      ∀ sec ∈ secs, sec.layout = "quick links" → sec.items.length = 5 := by
  have hfull := mixBatches_full l
  obtain ⟨sss, hsss, hprop⟩ := mapM_sections (mixBatches l) hfull
  refine ⟨hfull, sss.flatten, ?_, hprop⟩
  rw [mixFeedItems, hsss]
  rfl

/-- C10 witness: the concrete ten-candidate list mixes without faulting
into six sections with a full quick-links tail. -/
theorem c10_batches_full_no_fault_witness :
    (∀ b ∈ mixBatches exC10, b.length = 10) ∧
    ∃ secs : List Section, mixFeedItems exC10 = some secs ∧
      ∀ sec ∈ secs, sec.layout = "quick links" → sec.items.length = 5 :=
  c10_batches_full_no_fault exC10 (by decide)

/-! ### C7 and C8 — the feed store -/

/-- The members of the scored pairs are the sections themselves. -/
theorem scoredFrom_map_fst (t : Int) : ∀ (i : Nat) (secs : List Section),
    (scoredFrom t i secs).map Prod.fst = secs := by
  intro i secs
  induction secs generalizing i with
  | nil => rfl
  | cons s rest ih => simp [scoredFrom, ih]

/-- Every scored pair is at or above the score of its starting offset. -/
theorem scoredFrom_lb (t : Int) : ∀ (i : Nat) (secs : List Section),
    ∀ p ∈ scoredFrom t i secs, t + i + EXPIRY_MS ≤ p.2 := by
  intro i secs
  induction secs generalizing i with
  | nil => intro p hp; simp [scoredFrom] at hp
  | cons s rest ih =>
    intro p hp
    rcases List.mem_cons.mp hp with rfl | hpr
    · omega
    · have := ih (i + 1) p hpr
      push_cast at *
      omega

/-- Every scored pair lies strictly above the current time. -/
theorem scoredFrom_pos (t : Int) (i : Nat) (secs : List Section) :
    ∀ p ∈ scoredFrom t i secs, t < p.2 := by
  intro p hp
  have := scoredFrom_lb t i secs p hp
  have hexp : EXPIRY_MS = 86400000 := rfl
  omega

/-- Scores strictly increase along the scored pairs. -/
theorem scoredFrom_strictMono (t : Int) : ∀ (i : Nat) (secs : List Section),
    List.Pairwise (fun p q : Section × Int => p.2 < q.2) (scoredFrom t i secs) := by
  intro i secs
  induction secs generalizing i with
  | nil => exact List.Pairwise.nil
  | cons s rest ih =>
    rw [scoredFrom]
    refine List.pairwise_cons.mpr ⟨?_, ih (i + 1)⟩
    intro q hq
    have := scoredFrom_lb t (i + 1) rest q hq
    push_cast at *
    omega

/-- As many scored pairs as sections. -/
theorem scoredFrom_length (t : Int) : ∀ (i : Nat) (secs : List Section),
    (scoredFrom t i secs).length = secs.length := by
  intro i secs
  induction secs generalizing i with
  | nil => rfl
  | cons s rest ih => simp [scoredFrom, ih]

/-- Inserting above every present score appends at the end. -/
theorem orderedInsert_append (e : Section × Int) : ∀ st : Store,
    (∀ x ∈ st, x.2 < e.2) →
    List.orderedInsert (fun a b : Section × Int => a.2 ≤ b.2) e st = st ++ [e] := by
  intro st
  induction st with
  | nil => intro _; rfl
  | cons x rest ih =>
    intro h
    have hx := h x (List.mem_cons_self x rest)
    rw [List.orderedInsert, if_neg (by omega), ih (fun y hy => h y (List.mem_cons_of_mem x hy))]
    rfl

/-- `ZADD` of fresh members with strictly increasing scores above the whole
store appends the pairs in order. -/
theorem zadd_fresh : ∀ (pairs : List (Section × Int)) (st : Store),
    (∀ p ∈ pairs, ∀ e ∈ st, e.2 < p.2 ∧ e.1 ≠ p.1) →
    List.Pairwise (fun p q : Section × Int => p.2 < q.2) pairs →
    (pairs.map Prod.fst).Nodup →
    zadd pairs st = st ++ pairs := by
  intro pairs
  induction pairs with
  | nil => intro st _ _ _; simp [zadd]
  | cons p rest ih =>
    intro st h hmono hnd
    have hstep : zadd (p :: rest) st = zadd rest (zaddOne st p) := rfl
    have hfilter : st.filter (fun e => !(e.1 == p.1)) = st := by
      rw [List.filter_eq_self]
      intro e he
      have := (h p (List.mem_cons_self p rest) e he).2
      simpa using this
    have hone : zaddOne st p = st ++ [p] := by
      rw [zaddOne, hfilter]
      exact orderedInsert_append p st
        (fun e he => (h p (List.mem_cons_self p rest) e he).1)
    have hmapnd : (p.1 :: rest.map Prod.fst).Nodup := by
      rw [← List.map_cons]
      exact hnd
    have hnotin : p.1 ∉ rest.map Prod.fst := (List.nodup_cons.mp hmapnd).1
    have hndrest : (rest.map Prod.fst).Nodup := (List.nodup_cons.mp hmapnd).2
    rw [hstep, hone, ih (st ++ [p]) ?_ (List.Pairwise.of_cons hmono) hndrest]
    · rw [List.append_assoc]
      rfl
    · intro q hq e he
      rcases List.mem_append.mp he with hes | hep
      · exact h q (List.mem_cons_of_mem p hq) e hes
      · obtain rfl : e = p := by simpa using hep
        constructor
        · exact (List.pairwise_cons.mp hmono).1 q hq
        · intro hcontra
          exact hnotin (hcontra ▸ List.mem_map_of_mem Prod.fst hq)

/-- C7 (amended): appending pairwise-distinct sections, at most 500 of
them, to an empty store and reading back with no ceiling and a limit at
least their number returns exactly the scored sections in reverse append
order. -/
theorem c7_roundtrip (t : Int) (sections : List Section) (limit : Nat)
    (hnd : sections.Nodup) (hlen : sections.length ≤ MAX_FEED_ITEMS)
    (hlim : sections.length ≤ limit) :
    getJustReadFeedSections limit none (appendSectionsToFeed t sections []) =
      (scoredFrom t 0 sections).reverse := by
  have hz : zadd (scoredFrom t 0 sections) [] = scoredFrom t 0 sections := by
    have := zadd_fresh (scoredFrom t 0 sections) []
      (fun p _ e he => absurd he (List.not_mem_nil e))
      (scoredFrom_strictMono t 0 sections)
      (by rw [scoredFrom_map_fst]; exact hnd)
    simpa using this
  have hslen : (scoredFrom t 0 sections).length = sections.length :=
    scoredFrom_length t 0 sections
  have htrim : trimTop MAX_FEED_ITEMS (scoredFrom t 0 sections) =
      scoredFrom t 0 sections := by
    rw [trimTop, hslen, Nat.sub_eq_zero_of_le hlen, List.drop_zero]
  have hexpire : removeExpired t (scoredFrom t 0 sections) =
      scoredFrom t 0 sections := by
    rw [removeExpired, List.filter_eq_self]
    intro p hp
    simpa using scoredFrom_pos t 0 sections p hp
  have happend : appendSectionsToFeed t sections [] = scoredFrom t 0 sections := by
    rw [appendSectionsToFeed, hz, htrim, hexpire]
  rw [happend]
  show ((scoredFrom t 0 sections).reverse).take limit = (scoredFrom t 0 sections).reverse
  rw [List.take_of_length_le (by rw [List.length_reverse, hslen]; exact hlim)]

/-- C7 witness: the two distinct sections come back in reverse order with
their rank-scores. -/
theorem c7_roundtrip_witness :
    getJustReadFeedSections 2 none (appendSectionsToFeed 0 [exSecLong, exSecQuick] []) =
      (scoredFrom 0 0 [exSecLong, exSecQuick]).reverse :=
  c7_roundtrip 0 [exSecLong, exSecQuick] 2 (by decide) (by decide) (by decide)

/-- C7 (counterexample): appending the same section twice deduplicates in
the store (`ZADD` updates the member's score), so the read-back is not the
two appended sections in reverse order. -/
theorem c7_counterexample :
    getJustReadFeedSections 2 none (appendSectionsToFeed 0 [exSecQuick, exSecQuick] []) ≠
      (scoredFrom 0 0 [exSecQuick, exSecQuick]).reverse := by
  decide

/-- `ZADD` of one member keeps the store ascending. -/
theorem sorted_zaddOne (st : Store) (p : Section × Int) (h : StoreSorted st) :
    StoreSorted (zaddOne st p) := by
  have hfil : StoreSorted (st.filter (fun e => !(e.1 == p.1))) :=
    List.Pairwise.sublist (List.filter_sublist st) h
  haveI : IsTotal (Section × Int) (fun a b : Section × Int => a.2 ≤ b.2) :=
    ⟨fun a b => Int.le_total _ _⟩
  haveI : IsTrans (Section × Int) (fun a b : Section × Int => a.2 ≤ b.2) :=
    ⟨fun _ _ _ hab hbc => le_trans hab hbc⟩
  exact List.Sorted.orderedInsert p _ hfil

/-- `ZADD` of a batch keeps the store ascending. -/
theorem sorted_zadd : ∀ (pairs : List (Section × Int)) (st : Store),
    StoreSorted st → StoreSorted (zadd pairs st) := by
  intro pairs
  induction pairs with
  | nil => intro st h; exact h
  | cons p rest ih =>
    intro st h
    exact ih (zaddOne st p) (sorted_zaddOne st p h)

/-- An append keeps the store ascending. -/
theorem sorted_append (t : Int) (secs : List Section) (st : Store)
    (h : StoreSorted st) : StoreSorted (appendSectionsToFeed t secs st) := by
  have hmid : StoreSorted (zadd (scoredFrom t 0 secs) st) := sorted_zadd _ st h
  have htrim : StoreSorted (trimTop MAX_FEED_ITEMS (zadd (scoredFrom t 0 secs) st)) :=
    List.Pairwise.sublist (List.drop_sublist _ _) hmid
  exact List.Pairwise.sublist (List.filter_sublist _) htrim

/-- Any store built by a sequence of appends from empty is ascending. -/
theorem sorted_applyAppends : ∀ (ops : List (Int × List Section)) (st : Store),
    StoreSorted st → StoreSorted (applyAppends ops st) := by
  intro ops
  induction ops with
  | nil => intro st h; exact h
  | cons op rest ih =>
    intro st h
    exact ih _ (sorted_append op.1 op.2 st h)

/-- C8: after any sequence of appends ending in an append at time `t`, the
per-user store holds at most 500 entries, every retained entry's
rank-score is strictly above `t`, every entry present after the `ZADD`
that is not retained was either expired (score at or below `t`) or scores
no higher than every retained entry, and an unlimited retrieval returns at
most 500 entries. -/
theorem c8_capacity_and_expiry (ops : List (Int × List Section)) (t : Int)
    (secs : List Section) :
    (appendSectionsToFeed t secs (applyAppends ops [])).length ≤ MAX_FEED_ITEMS ∧
    (∀ e ∈ appendSectionsToFeed t secs (applyAppends ops []), t < e.2) ∧
    (∀ y ∈ zadd (scoredFrom t 0 secs) (applyAppends ops []),
      y ∉ appendSectionsToFeed t secs (applyAppends ops []) →
      y.2 ≤ t ∨ ∀ x ∈ appendSectionsToFeed t secs (applyAppends ops []), y.2 ≤ x.2) ∧
    ∀ limit, (getJustReadFeedSections limit none
      (appendSectionsToFeed t secs (applyAppends ops []))).length ≤ MAX_FEED_ITEMS := by
  have hsortedpre : StoreSorted (applyAppends ops []) :=
    sorted_applyAppends ops [] List.Pairwise.nil
  have hsortedmid : StoreSorted (zadd (scoredFrom t 0 secs) (applyAppends ops [])) :=
    sorted_zadd _ _ hsortedpre
  have hfin : appendSectionsToFeed t secs (applyAppends ops []) =
      removeExpired t ((zadd (scoredFrom t 0 secs) (applyAppends ops [])).drop
        ((zadd (scoredFrom t 0 secs) (applyAppends ops [])).length - MAX_FEED_ITEMS)) :=
    rfl
  have hlen : (appendSectionsToFeed t secs (applyAppends ops [])).length ≤
      MAX_FEED_ITEMS := by
    rw [hfin]
    have h1 := List.length_filter_le (fun e => decide (t < e.2))
      ((zadd (scoredFrom t 0 secs) (applyAppends ops [])).drop
        ((zadd (scoredFrom t 0 secs) (applyAppends ops [])).length - MAX_FEED_ITEMS))
    have h2 := List.length_drop
      ((zadd (scoredFrom t 0 secs) (applyAppends ops [])).length - MAX_FEED_ITEMS)
      (zadd (scoredFrom t 0 secs) (applyAppends ops []))
    have h3 : 0 < MAX_FEED_ITEMS := by decide
    rw [removeExpired]
    omega
  refine ⟨hlen, ?_, ?_, ?_⟩
  · intro e he
    rw [hfin, removeExpired] at he
    have := (List.mem_filter.mp he).2
    simpa using this
  · intro y hy hynot
    by_cases hyd : y ∈ (zadd (scoredFrom t 0 secs) (applyAppends ops [])).drop
        ((zadd (scoredFrom t 0 secs) (applyAppends ops [])).length - MAX_FEED_ITEMS)
    · by_cases hyt : t < y.2
      · exfalso
        apply hynot
        rw [hfin, removeExpired]
        exact List.mem_filter.mpr ⟨hyd, by simpa using hyt⟩
      · left
        omega
    · right
      intro x hx
      have hxdrop : x ∈ (zadd (scoredFrom t 0 secs) (applyAppends ops [])).drop
          ((zadd (scoredFrom t 0 secs) (applyAppends ops [])).length - MAX_FEED_ITEMS) := by
        rw [hfin, removeExpired] at hx
        exact List.mem_of_mem_filter hx
      have hytake : y ∈ (zadd (scoredFrom t 0 secs) (applyAppends ops [])).take
          ((zadd (scoredFrom t 0 secs) (applyAppends ops [])).length - MAX_FEED_ITEMS) := by
        have hysplit : y ∈ (zadd (scoredFrom t 0 secs) (applyAppends ops [])).take
              ((zadd (scoredFrom t 0 secs) (applyAppends ops [])).length - MAX_FEED_ITEMS) ++
            (zadd (scoredFrom t 0 secs) (applyAppends ops [])).drop
              ((zadd (scoredFrom t 0 secs) (applyAppends ops [])).length - MAX_FEED_ITEMS) := by
          rw [List.take_append_drop]
          exact hy
        rcases List.mem_append.mp hysplit with h1 | h2
        · exact h1
        · exact absurd h2 hyd
      have hpairs : List.Pairwise (fun a b : Section × Int => a.2 ≤ b.2)
          ((zadd (scoredFrom t 0 secs) (applyAppends ops [])).take
              ((zadd (scoredFrom t 0 secs) (applyAppends ops [])).length - MAX_FEED_ITEMS) ++
            (zadd (scoredFrom t 0 secs) (applyAppends ops [])).drop
              ((zadd (scoredFrom t 0 secs) (applyAppends ops [])).length - MAX_FEED_ITEMS)) := by
        rw [List.take_append_drop]
        exact hsortedmid
      exact (List.pairwise_append.mp hpairs).2.2 y hytake x hxdrop
  · intro limit
    have hget : getJustReadFeedSections limit none
        (appendSectionsToFeed t secs (applyAppends ops [])) =
        ((appendSectionsToFeed t secs (applyAppends ops [])).reverse).take limit := rfl
    rw [hget]
    have := List.length_take limit
      ((appendSectionsToFeed t secs (applyAppends ops [])).reverse)
    have hrev := List.length_reverse (appendSectionsToFeed t secs (applyAppends ops []))
    omega

end JustReadFeed

